import Mathlib

/-!
Verification of the universal-variable subsystem of the fish shell and of
its function registry.

The repository ships `src/function.cpp` (the function registry) together
with `src/fish_tests.cpp`, the test suite of the universal-variable
engine.  The engine itself (codec, variable table, sync engine, notifier
strategies) is not part of the sources, so those components are modelled
from the specification; the function registry is embedded directly from
`function.cpp`.
-/

namespace Fish

/-! ## Codec

Modelled from the spec: the codec of `env_universal_common` is not among
the sources; §4.1 and §6 describe it as a lossless text encoding of one
variable record (name, export flag, value) — a leading keyword marking
the export flag, then the escaped name, a separator, and the escaped
value — escaping backslashes and newlines so that a record always
occupies exactly one line, with `decode` returning "no record" on a
malformed or truncated line.  Characters are modelled as `Char`. -/

/-- One variable record: name, value, export flag (§3 UniversalVariable). -/
structure UVarRecord where
  name : List Char
  value : List Char
  exported : Bool
deriving DecidableEq, Repr

/-- Escape one character: backslash, newline and the field separator get a
backslash escape, everything else passes through. -/
def escapeChar (c : Char) : List Char :=
  if c = '\\' then ['\\', '\\']
  else if c = '\n' then ['\\', 'n']
  else if c = ':' then ['\\', 'c']
  else [c]

/-- Escape a whole field so it contains no bare backslash, newline or
separator. -/
def escapeChars : List Char → List Char
  | [] => []
  | c :: rest => escapeChar c ++ escapeChars rest

/-- Decode one escape code letter. -/
def unescCode (c : Char) : Option Char :=
  if c = '\\' then some '\\'
  else if c = 'n' then some '\n'
  else if c = 'c' then some ':'
  else none

/-- Unescape a field.  A dangling backslash, an unknown escape code, or a
bare newline/separator is malformed and yields `none`. -/
def unescapeChars : List Char → Option (List Char)
  | [] => some []
  | c :: rest =>
    if c = '\\' then
      match rest with
      | [] => none
      | d :: rest' =>
        match unescCode d with
        | some u => (unescapeChars rest').map (u :: ·)
        | none => none
    else if c = '\n' ∨ c = ':' then none
    else (unescapeChars rest).map (c :: ·)

/-- Encode one record as a single line: export-flag keyword, escaped name,
separator, escaped value. -/
def encodeRecord (r : UVarRecord) : List Char :=
  (if r.exported then "SET_EXPORT " else "SET ").toList ++
    (escapeChars r.name ++ ':' :: escapeChars r.value)

/-- Strip a literal prefix, or fail. -/
def stripPrefixChars : List Char → List Char → Option (List Char)
  | [], l => some l
  | _ :: _, [] => none
  | a :: ps, b :: ls => if a = b then stripPrefixChars ps ls else none

/-- Split a line body at the first separator. -/
def splitAtColon : List Char → Option (List Char × List Char)
  | [] => none
  | c :: rest =>
    if c = ':' then some ([], rest)
    else (splitAtColon rest).map (fun p => (c :: p.1, p.2))

/-- Decode the part of the line after the keyword. -/
def decodeBody (rest : List Char) (ex : Bool) : Option UVarRecord := do
  let (en, ev) ← splitAtColon rest
  let n ← unescapeChars en
  let v ← unescapeChars ev
  pure ⟨n, v, ex⟩

/-- Decode one line into a record, or `none` when the line is malformed
or truncated. -/
def decodeRecord (line : List Char) : Option UVarRecord :=
  match stripPrefixChars "SET_EXPORT ".toList line with
  | some rest => decodeBody rest true
  | none =>
    match stripPrefixChars "SET ".toList line with
    | some rest => decodeBody rest false
    | none => none


/-! ## Variable table and sync engine

Modelled from the spec: `env_universal_t` of `env_universal_common` is not
among the sources; §3, §4.2 and §4.3 describe a per-process table of
name → (value, export flag) with dirty tracking, a baseline snapshot, and
`sync()` = read remote, diff against baseline, merge with local pending
writes winning, write back, adopt the merge as baseline, return the diff
filtered of locally pending keys.  A snapshot is an association list with
unique names; an unreadable file is `none`. -/

/-- value and export flag of one variable (§3 UniversalVariable). -/
structure UVar where
  value : String
  exported : Bool
deriving DecidableEq, Repr

/-- A persisted snapshot / in-memory table: name → (value, export flag). -/
abbrev Snapshot := List (String × UVar)

/-- Lookup in a snapshot. -/
def Snapshot.get : Snapshot → String → Option UVar
  | [], _ => none
  | (k', v) :: rest, k => if k' = k then some v else Snapshot.get rest k

/-- Drop every entry of a key. -/
def Snapshot.eraseKey (s : Snapshot) (k : String) : Snapshot :=
  s.filter (fun p => p.1 ≠ k)

/-- Overwrite (or create) the entry of a key. -/
def Snapshot.setKey (s : Snapshot) (k : String) (v : UVar) : Snapshot :=
  (k, v) :: s.eraseKey k

/-- One process's engine state: its table, the baseline it last reconciled
against, and the keys with pending local changes (§3 VariableTable,
Baseline). -/
structure EnvUniversal where
  table : Snapshot
  baseline : Snapshot
  pending : List String
deriving DecidableEq, Repr

/-- A fresh engine bound to a path, before any load (§3 lifecycle). -/
def EnvUniversal.init : EnvUniversal := ⟨[], [], []⟩

/-- `set(name, value, exported)`: in-memory write, marks the key pending
(§4.2). -/
def EnvUniversal.set (s : EnvUniversal) (k : String) (v : String)
    (ex : Bool) : EnvUniversal :=
  { s with table := s.table.setKey k ⟨v, ex⟩, pending := k :: s.pending }

/-- `remove(name)`: in-memory delete, marks the key pending (§4.2). -/
def EnvUniversal.remove (s : EnvUniversal) (k : String) : EnvUniversal :=
  { s with table := s.table.eraseKey k, pending := k :: s.pending }

/-- `get(name)` (§4.2). -/
def EnvUniversal.get (s : EnvUniversal) (k : String) : Option UVar :=
  s.table.get k

/-- `load()`: adopt a parsed snapshot wholesale and clear pending
tracking; on an unreadable file return false and change nothing (§4.2). -/
def EnvUniversal.load (s : EnvUniversal) (remote : Option Snapshot) :
    Bool × EnvUniversal :=
  match remote with
  | none => (false, s)
  | some r => (true, { table := r, baseline := r, pending := [] })

/-- Kind of one change event (§3 ChangeEvent). -/
inductive ChangeKind
  | set
  | setExportOnly
  | erase
deriving DecidableEq, Repr

/-- One change event returned by `sync()` (§3 ChangeEvent). -/
structure ChangeEvent where
  kind : ChangeKind
  name : String
  value : String
deriving DecidableEq, Repr

/-- Classify one key of the baseline/remote diff (§4.3 step 2): value
differs → Set, only export differs → SetExportOnly, gone → Erase with
empty value, new in remote → Set, unchanged → no event. -/
def diffKey (b r : Option UVar) (k : String) : Option ChangeEvent :=
  match b, r with
  | some bv, some rv =>
    if bv.value ≠ rv.value then some ⟨.set, k, rv.value⟩
    else if bv.exported ≠ rv.exported then some ⟨.setExportOnly, k, rv.value⟩
    else none
  | some _, none => some ⟨.erase, k, ""⟩
  | none, some rv => some ⟨.set, k, rv.value⟩
  | none, none => none

/-- The keys of a snapshot. -/
def keysOf (s : Snapshot) : List String := s.map (fun p => p.1)

/-- External changes of remote R against baseline B (§4.3 step 2), one
classification per key. -/
def diffSnapshots (b r : Snapshot) : List ChangeEvent :=
  ((keysOf b ++ keysOf r).dedup).filterMap (fun k => diffKey (b.get k) (r.get k) k)

/-- Merged snapshot M (§4.3 step 3): R with every pending key overwritten
by the local table, and every pending-deleted key dropped even if present
in R. -/
def mergeSnapshot (r : Snapshot) (table : Snapshot)
    (pending : List String) : Snapshot :=
  r.filter (fun p => p.1 ∉ pending) ++ table.filter (fun p => p.1 ∈ pending)

/-- Sync failure taxonomy (§4.3, §7a). -/
inductive SyncError
  | io
deriving DecidableEq, Repr

/-- `sync()` (§4.3): read remote (`none` = unreadable → `SyncError.io`,
nothing touched, nothing written), diff against baseline, merge with
local pending state winning, write M back, baseline := M, clear pending,
return the external changes minus locally pending keys.  The result is
(change list or error, state after, file contents after). -/
def EnvUniversal.sync (s : EnvUniversal) (remote : Option Snapshot) :
    Except SyncError (List ChangeEvent) × EnvUniversal × Option Snapshot :=
  match remote with
  | none => (.error .io, s, none)
  | some r =>
    let changes := (diffSnapshots s.baseline r).filter (fun e => e.name ∉ s.pending)
    let m := mergeSnapshot r s.table s.pending
    (.ok changes, { table := m, baseline := m, pending := [] }, some m)

/-- An example engine state: one pending write ("k") and one pending
deletion ("d"). -/
def sampleLocal : EnvUniversal :=
  ⟨[("k", ⟨"v1", false⟩)], [("k", ⟨"v0", false⟩), ("d", ⟨"old", true⟩)],
    ["k", "d"]⟩

/-- An example remote snapshot that conflicts with `sampleLocal`'s pending
keys and changes others. -/
def sampleRemote : Snapshot :=
  [("k", ⟨"v2", false⟩), ("d", ⟨"old", true⟩)]

/-- An example observer with no pending changes, fully reconciled. -/
def sampleObserver : EnvUniversal :=
  ⟨[("b", ⟨"1", false⟩), ("u", ⟨"1", false⟩), ("g", ⟨"1", false⟩)],
   [("b", ⟨"1", false⟩), ("u", ⟨"1", false⟩), ("g", ⟨"1", false⟩)], []⟩

/-- The file after a peer flipped only the export flag of "b", left "u"
alone and deleted "g". -/
def sampleRemoteChanged : Snapshot :=
  [("b", ⟨"1", true⟩), ("u", ⟨"1", false⟩)]

/-! ## Multi-process runs

Modelled from the spec: §5's ordering model — `sync()` calls are
serialized within one process, the shared file is the only shared
resource, and each reconciliation (§4.3 read-diff-merge-write under the
atomic-replace discipline) acts on the file as one atomic step; across
processes only the interleaving of these steps varies.  A system state is
the shared file plus every process's engine; one step is a process
applying a batch of local mutations and then syncing. -/

/-- One local mutation of a process's table. -/
inductive UvarOp
  | setVar (k v : String) (ex : Bool)
  | removeVar (k : String)
deriving DecidableEq, Repr

/-- The key an operation touches. -/
def UvarOp.key : UvarOp → String
  | .setVar k _ _ => k
  | .removeVar k => k

/-- Apply one mutation to a process's engine. -/
def applyOp (s : EnvUniversal) : UvarOp → EnvUniversal
  | .setVar k v ex => s.set k v ex
  | .removeVar k => s.remove k

/-- Apply a batch of mutations in order. -/
def applyOps (s : EnvUniversal) (ops : List UvarOp) : EnvUniversal :=
  ops.foldl applyOp s

/-- The effect of a batch of mutations on one key's value. -/
def applyOpsKey (ops : List UvarOp) (k : String) (x : Option UVar) :
    Option UVar :=
  ops.foldl (fun acc op =>
    match op with
    | .setVar k' v ex => if k' = k then some ⟨v, ex⟩ else acc
    | .removeVar k' => if k' = k then none else acc) x

/-- The value a process's whole script leaves for a key: the last set
value, or nothing when the key was (last) removed or never touched. -/
def finalOf (ops : List UvarOp) (k : String) : Option UVar :=
  applyOpsKey ops k none

/-- The whole system: the shared file and every process's engine. -/
structure SysState where
  file : Snapshot
  procs : Nat → EnvUniversal

/-- The initial system: an empty shared file and fresh engines (the tests
run against a freshly created path). -/
def SysState.start : SysState := ⟨[], fun _ => EnvUniversal.init⟩

/-- One atomic step: process `i` applies `ops` locally, then syncs
against the shared file; the file takes what sync wrote. -/
def sysStep (sys : SysState) (i : Nat) (ops : List UvarOp) : SysState :=
  let out := (applyOps (sys.procs i) ops).sync (some sys.file)
  { file := out.2.2.getD sys.file,
    procs := fun j => if j = i then out.2.1 else sys.procs j }

/-- Run a schedule: an arbitrary interleaving of per-process batches. -/
def sysRun (sys : SysState) (sched : List (Nat × List UvarOp)) : SysState :=
  sched.foldl (fun acc step => sysStep acc step.1 step.2) sys

/-- All batches of one process in a schedule, in order. -/
def batchesOf (sched : List (Nat × List UvarOp)) (i : Nat) : List UvarOp :=
  (sched.filterMap (fun p => if p.1 = i then some p.2 else none)).flatten

/-- Every batch of the schedule mutates only keys its process owns
(pairwise-disjoint key sets). -/
abbrev SchedOwned (owner : String → Nat)
    (sched : List (Nat × List UvarOp)) : Prop :=
  ∀ p ∈ sched, ∀ op ∈ p.2, owner op.key = p.1

/-- Ownership map for the concrete two-process example: "z" belongs to
process 1, everything else to process 0. -/
def c6Owner : String → Nat := fun k => if k = "z" then 1 else 0

/-- Concrete scripts: process 0 sets "x" and "y" and then removes "x";
process 1 sets "z". -/
def c6Script : Nat → List UvarOp := fun i =>
  if i = 0 then
    [.setVar "x" "1" false, .setVar "y" "2" false, .removeVar "x"]
  else if i = 1 then [.setVar "z" "3" false]
  else []

/-- A concrete interleaving of the two scripts. -/
def c6Sched : List (Nat × List UvarOp) :=
  [(0, [.setVar "x" "1" false, .setVar "y" "2" false]),
   (1, [.setVar "z" "3" false]),
   (0, [.removeVar "x"])]

/-- The barrier order: both processes sync once more. -/
def c6Order : List Nat := [0, 1]

/-! ## Notifiers

Modelled from the spec: the notifier strategies of
`universal_notifier_t` are not among the sources; §4.4 describes three
interchangeable strategies behind one capability interface.  Real time
(the push service's propagation delay, the pipe's flash/settle duration)
is modelled by explicit transitions: a post is observed once delivered,
and the pipe's settle is its own step.  Peers are identified by `Nat`. -/

/-- Polling strategy: a small shared counter plus each peer's last-seen
value; a fresh notifier adopts the current counter so it reports nothing
pending. -/
structure PollingState where
  counter : Nat
  lastSeen : Nat → Nat

/-- Fresh polling notifiers over a shared counter at `c`. -/
def PollingState.fresh (c : Nat) : PollingState := ⟨c, fun _ => c⟩

/-- `post_notification()` for the polling strategy: bump the shared
counter. -/
def pollingPost (st : PollingState) : PollingState :=
  { st with counter := st.counter + 1 }

/-- `poll()` for the polling strategy: report and record a counter
change. -/
def pollingPoll (st : PollingState) (i : Nat) : Bool × PollingState :=
  if st.lastSeen i ≠ st.counter then
    (true,
      { st with lastSeen := fun j => if j = i then st.counter else st.lastSeen j })
  else (false, st)

/-- Every peer in `order` polls once, in order. -/
def pollingDrain (st : PollingState) (order : List Nat) : PollingState :=
  order.foldl (fun acc j => (pollingPoll acc j).2) st

/-- OS push strategy: per-peer delivered-notification flags. -/
structure NotifydState where
  flag : Nat → Bool

/-- Fresh push notifiers: nothing delivered. -/
def NotifydState.fresh : NotifydState := ⟨fun _ => false⟩

/-- `post_notification()` after its round trip through the service: the
notification is delivered to every peer. -/
def notifydPost (_ : NotifydState) : NotifydState := ⟨fun _ => true⟩

/-- `poll()` for the push strategy: consume the peer's delivered flag. -/
def notifydPoll (st : NotifydState) (i : Nat) : Bool × NotifydState :=
  (st.flag i, ⟨fun j => if j = i then false else st.flag j⟩)

/-- Every peer in `order` polls once, in order. -/
def notifydDrain (st : NotifydState) (order : List Nat) : NotifydState :=
  order.foldl (fun acc j => (notifydPoll acc j).2) st

/-- Named-pipe strategy: the pipe's readability is the signal. -/
structure PipeState where
  readable : Bool

/-- Fresh pipe notifiers: pipe not readable. -/
def PipeState.fresh : PipeState := ⟨false⟩

/-- `post_notification()`: the flash makes the pipe readable to all. -/
def pipePost (_ : PipeState) : PipeState := ⟨true⟩

/-- fd-readiness check: observes readability without consuming it. -/
def pipePoll (st : PipeState) (_ : Nat) : Bool × PipeState :=
  (st.readable, st)

/-- After the flash duration the poster closes its end and all peers
drain: past the settle time the pipe reads as not readable. -/
def pipeSettle (_ : PipeState) : PipeState := ⟨false⟩

/-! ## Function registry

Embedded from `src/function.cpp`: the process-global `loaded_functions`
map and `function_tombstones` set together with the operations acting on
them.  Calls that leave the registry state (the event subsystem's
`event_add_handler`/`event_remove`, the autoloader's `unload`, the
parser) are noted where they occur; the autoloader's `load` result is
abstracted as a parameter. -/

/-- `function_info_t` (function.cpp:182-204), restricted to the fields
stored by value; `definition_file`/`definition_offset`/`inherit_vars`
come from the parser and environment and carry no registry logic. -/
structure FunctionInfo where
  definition : String
  description : String
  named_arguments : List String
  is_autoload : Bool
  shadows : Bool
deriving DecidableEq, Repr

/-- The registry's global state: `loaded_functions` (function.cpp:43-44,
a `std::map` keyed by function name) and `function_tombstones`
(function.cpp:49, a `std::set` of names that may no longer autoload). -/
structure FunctionRegistry where
  loaded_functions : List (String × FunctionInfo)
  function_tombstones : List String
deriving DecidableEq, Repr

/-- `std::map::find` on the function map. -/
def mapFind : List (String × FunctionInfo) → String → Option FunctionInfo
  | [], _ => none
  | (k', v) :: rest, k => if k' = k then some v else mapFind rest k

/-- `std::map::erase` of one key. -/
def mapErase (m : List (String × FunctionInfo)) (k : String) :
    List (String × FunctionInfo) :=
  m.filter (fun p => p.1 ≠ k)

/-- `std::map::insert`: inserts only when the key is absent. -/
def mapInsert (m : List (String × FunctionInfo)) (k : String)
    (v : FunctionInfo) : List (String × FunctionInfo) :=
  if (mapFind m k).isSome then m else (k, v) :: m

/-- The names present in the function map. -/
def funcKeys (m : List (String × FunctionInfo)) : List String :=
  m.map (fun p => p.1)

/-- `function_remove_ignore_autoload(name, tombstone)`
(function.cpp:246-269): erase the entry if present, tombstoning the name
when it was an autoloaded function and `tombstone` is set; returns
whether an entry was erased.  The `event_remove` call only touches the
event subsystem. -/
def function_remove_ignore_autoload (st : FunctionRegistry) (name : String)
    (tombstone : Bool) : Bool × FunctionRegistry :=
  match mapFind st.loaded_functions name with
  | none => (false, st)
  | some info =>
    (true,
      { loaded_functions := mapErase st.loaded_functions name,
        function_tombstones :=
          if info.is_autoload && tombstone then name :: st.function_tombstones
          else st.function_tombstones })

/-- `function_remove(name)` (function.cpp:271-275): remove with
tombstoning; on success the autoloader's `unload` is called, which only
touches the autoloader's own cache. -/
def function_remove (st : FunctionRegistry) (name : String) :
    FunctionRegistry :=
  (function_remove_ignore_autoload st name true).2

/-- `load(parser, name)` (function.cpp:88-110): a tombstoned name returns
0 at once; a loaded non-autoload entry returns 0; otherwise the
autoloader runs and its result is returned.  The autoloader call is
abstracted as `autoload_res`; the Bool records whether it was invoked. -/
def load (st : FunctionRegistry) (name : String) (autoload_res : Int) :
    Int × Bool :=
  if name ∈ st.function_tombstones then (0, false)
  else
    match mapFind st.loaded_functions name with
    | some info => if !info.is_autoload then (0, false) else (autoload_res, true)
    | none => (autoload_res, true)

/-- `function_data_t`, restricted to the fields the registry stores; the
definition is a C pointer, hence possibly null. -/
structure FunctionData where
  name : String
  definition : Option String
  description : String
  named_arguments : List String
  shadows : Bool
deriving DecidableEq, Repr

/-- `function_add(data, parser)` (function.cpp:206-227): the CHECK macros
return early on an empty name or a null definition; otherwise the old
function is removed and a fresh entry inserted.  `autoload` mirrors the
global `is_autoload` flag (function.cpp:82) the autoloader sets around
its call; `event_add_handler` only touches the event subsystem. -/
def function_add (st : FunctionRegistry) (data : FunctionData)
    (autoload : Bool) : FunctionRegistry :=
  if data.name = "" then st
  else
    match data.definition with
    | none => st
    | some d =>
      let st1 := function_remove st data.name
      { st1 with loaded_functions :=
          (mapInsert st1.loaded_functions data.name
            ⟨d, data.description, data.named_arguments, autoload,
              data.shadows⟩) }

/-- `function_copy(name, new_name)` (function.cpp:353-366): insert a copy
of the entry under the new name, unattached to the original's definition
file and with the autoload flag cleared. -/
def function_copy (st : FunctionRegistry) (name new_name : String) :
    FunctionRegistry :=
  match mapFind st.loaded_functions name with
  | none => st
  | some info =>
    { st with loaded_functions :=
        (mapInsert st.loaded_functions new_name
          { info with is_autoload := false }) }

/-- `function_set_desc(name, desc)` (function.cpp:342-351), its registry
effect: overwrite the description of an existing entry.  (Its `load`
call may first pull the function in through the autoloader.) -/
def function_set_desc (st : FunctionRegistry) (name desc : String) :
    FunctionRegistry :=
  { st with loaded_functions :=
      st.loaded_functions.map (fun p =>
        if p.1 = name then (p.1, { p.2 with description := desc }) else p) }

/-- An example registry holding one autoloaded function "f". -/
def sampleRegistry : FunctionRegistry :=
  ⟨[("f", ⟨"body", "", [], true, false⟩)], []⟩

/-! ### Codec lemmas -/

theorem unescapeChars_bs (d : Char) (rest : List Char) :
    unescapeChars ('\\' :: d :: rest) =
      match unescCode d with
      | some u => (unescapeChars rest).map (u :: ·)
      | none => none := rfl

theorem unescapeChars_cons (c : Char) (rest : List Char) (h1 : c ≠ '\\')
    (h2 : c ≠ '\n') (h3 : c ≠ ':') :
    unescapeChars (c :: rest) = (unescapeChars rest).map (c :: ·) := by
  rw [unescapeChars.eq_def]
  simp only [if_neg h1]
  rw [if_neg (by simp [h2, h3])]

theorem unescape_escapeChar (c : Char) (rest : List Char) :
    unescapeChars (escapeChar c ++ rest) = (unescapeChars rest).map (c :: ·) := by
  by_cases h1 : c = '\\'
  · subst h1
    show unescapeChars ('\\' :: '\\' :: rest) = _
    rw [unescapeChars_bs]
    rfl
  · by_cases h2 : c = '\n'
    · subst h2
      show unescapeChars ('\\' :: 'n' :: rest) = _
      rw [unescapeChars_bs]
      rfl
    · by_cases h3 : c = ':'
      · subst h3
        show unescapeChars ('\\' :: 'c' :: rest) = _
        rw [unescapeChars_bs]
        rfl
      · have hc : escapeChar c = [c] := by simp [escapeChar, h1, h2, h3]
        rw [hc]
        exact unescapeChars_cons c rest h1 h2 h3

theorem unescape_escape (s : List Char) :
    unescapeChars (escapeChars s) = some s := by
  induction s with
  | nil => rfl
  | cons c rest ih =>
    show unescapeChars (escapeChar c ++ escapeChars rest) = _
    rw [unescape_escapeChar, ih]
    rfl

theorem escape_unescape (x s : List Char) (h : unescapeChars x = some s) :
    escapeChars s = x := by
  induction s generalizing x with
  | nil =>
    cases x with
    | nil => rfl
    | cons c rest =>
      by_cases h1 : c = '\\'
      · subst h1
        cases rest with
        | nil => exact Option.noConfusion h
        | cons d rest' =>
          rw [unescapeChars_bs] at h
          cases hu : unescCode d with
          | none => rw [hu] at h; exact Option.noConfusion h
          | some u =>
            rw [hu] at h
            cases hr : unescapeChars rest' with
            | none => rw [hr] at h; exact Option.noConfusion h
            | some t => rw [hr] at h; simp at h
      · by_cases h2 : c = '\n'
        · subst h2; rw [unescapeChars.eq_def] at h; simp [h1] at h
        · by_cases h3 : c = ':'
          · subst h3; rw [unescapeChars.eq_def] at h; simp [h1] at h
          · rw [unescapeChars_cons c rest h1 h2 h3] at h
            cases hr : unescapeChars rest with
            | none => rw [hr] at h; exact Option.noConfusion h
            | some t => rw [hr] at h; simp at h
  | cons u tl ih =>
    cases x with
    | nil =>
      have h' : some ([] : List Char) = some (u :: tl) := h
      simp at h'
    | cons c rest =>
      by_cases h1 : c = '\\'
      · subst h1
        cases rest with
        | nil => exact Option.noConfusion h
        | cons d rest' =>
          rw [unescapeChars_bs] at h
          cases hu : unescCode d with
          | none => rw [hu] at h; exact Option.noConfusion h
          | some w =>
            rw [hu] at h
            cases hr : unescapeChars rest' with
            | none => rw [hr] at h; exact Option.noConfusion h
            | some t =>
              rw [hr] at h
              simp only [Option.map_some', Option.some.injEq, List.cons.injEq] at h
              obtain ⟨hw, ht⟩ := h
              subst ht
              rw [← hw]
              have hd : escapeChar w = ['\\', d] := by
                simp only [unescCode] at hu
                by_cases hd1 : d = '\\'
                · subst hd1; simp at hu; subst hu; rfl
                · by_cases hd2 : d = 'n'
                  · subst hd2; simp [hd1] at hu; subst hu; rfl
                  · by_cases hd3 : d = 'c'
                    · subst hd3; simp [hd1, hd2] at hu; subst hu; rfl
                    · simp [hd1, hd2, hd3] at hu
              show escapeChar w ++ escapeChars t = '\\' :: d :: rest'
              rw [hd, ih rest' hr]
              rfl
      · by_cases h2 : c = '\n'
        · subst h2; rw [unescapeChars.eq_def] at h; simp [h1] at h
        · by_cases h3 : c = ':'
          · subst h3; rw [unescapeChars.eq_def] at h; simp [h1] at h
          · rw [unescapeChars_cons c rest h1 h2 h3] at h
            cases hr : unescapeChars rest with
            | none => rw [hr] at h; exact Option.noConfusion h
            | some t =>
              rw [hr] at h
              simp only [Option.map_some', Option.some.injEq, List.cons.injEq] at h
              obtain ⟨hw, ht⟩ := h
              subst ht
              rw [← hw]
              show escapeChar c ++ escapeChars t = c :: rest
              have hc : escapeChar c = [c] := by
                simp [escapeChar, h1, h2, h3]
              rw [hc, ih rest hr]
              rfl

theorem colon_not_mem_escape (s : List Char) : ':' ∉ escapeChars s := by
  induction s with
  | nil => simp [escapeChars]
  | cons c rest ih =>
    show ':' ∉ escapeChar c ++ escapeChars rest
    simp only [List.mem_append]
    rintro (h | h)
    · by_cases h1 : c = '\\'
      · subst h1; simp [escapeChar] at h
      · by_cases h2 : c = '\n'
        · subst h2; simp [escapeChar, h1] at h
        · by_cases h3 : c = ':'
          · subst h3; simp [escapeChar] at h
          · simp [escapeChar, h1, h2, h3] at h; exact h3 h.symm
    · exact ih h

theorem splitAtColon_cons (c : Char) (rest : List Char) :
    splitAtColon (c :: rest) =
      if c = ':' then some ([], rest)
      else (splitAtColon rest).map (fun p => (c :: p.1, p.2)) := rfl

theorem splitAtColon_append (u t : List Char) (hu : ':' ∉ u) :
    splitAtColon (u ++ ':' :: t) = some (u, t) := by
  induction u with
  | nil => simp [splitAtColon_cons]
  | cons c cs ih =>
    have hc : c ≠ ':' := fun h => hu (h ▸ List.mem_cons_self c cs)
    have hcs : ':' ∉ cs := fun h => hu (List.mem_cons_of_mem c h)
    rw [List.cons_append, splitAtColon_cons, if_neg hc, ih hcs]
    rfl

theorem splitAtColon_eq (l : List Char) (en ev : List Char)
    (h : splitAtColon l = some (en, ev)) :
    l = en ++ ':' :: ev ∧ ':' ∉ en := by
  induction l generalizing en with
  | nil => simp [splitAtColon] at h
  | cons c rest ih =>
    rw [splitAtColon_cons] at h
    by_cases hc : c = ':'
    · subst hc
      rw [if_pos rfl] at h
      simp only [Option.some.injEq, Prod.mk.injEq] at h
      obtain ⟨h1, h2⟩ := h
      subst h1; subst h2
      exact ⟨rfl, by simp⟩
    · rw [if_neg hc] at h
      cases hs : splitAtColon rest with
      | none => rw [hs] at h; exact absurd h (by simp)
      | some p =>
        obtain ⟨p1, p2⟩ := p
        rw [hs] at h
        simp only [Option.map_some', Option.some.injEq, Prod.mk.injEq] at h
        obtain ⟨h1, h2⟩ := h
        subst h2
        obtain ⟨hr, hn⟩ := ih p1 hs
        constructor
        · rw [← h1, hr]; simp
        · rw [← h1]
          simp only [List.mem_cons]
          rintro (hx | hx)
          · exact hc hx.symm
          · exact hn hx

theorem stripPrefixChars_eq (p l rest : List Char)
    (h : stripPrefixChars p l = some rest) : l = p ++ rest := by
  induction p generalizing l with
  | nil =>
    have h' : some l = some rest := h
    simp only [Option.some.injEq] at h'
    simp [h']
  | cons a ps ih =>
    match l with
    | [] => exact Option.noConfusion h
    | b :: ls =>
      have h' : (if a = b then stripPrefixChars ps ls else none) = some rest := h
      by_cases hab : a = b
      · subst hab
        rw [if_pos rfl] at h'
        simp [ih ls h']
      · rw [if_neg hab] at h'
        exact absurd h' (by simp)

theorem stripPrefixChars_append (p l : List Char) :
    stripPrefixChars p (p ++ l) = some l := by
  induction p with
  | nil => rfl
  | cons a ps ih =>
    show (if a = a then stripPrefixChars ps (ps ++ l) else none) = some l
    rw [if_pos rfl]
    exact ih

/-- Auxiliary: decoding the encoded body recovers the fields. -/
theorem decodeBody_encode (n v : List Char) (ex : Bool) :
    decodeBody (escapeChars n ++ ':' :: escapeChars v) ex = some ⟨n, v, ex⟩ := by
  unfold decodeBody
  rw [splitAtColon_append _ _ (colon_not_mem_escape n)]
  simp [unescape_escape]

theorem decode_encodeRecord (r : UVarRecord) :
    decodeRecord (encodeRecord r) = some r := by
  obtain ⟨n, v, ex⟩ := r
  cases ex with
  | true =>
    show decodeRecord ("SET_EXPORT ".toList ++ (escapeChars n ++ ':' :: escapeChars v)) = _
    unfold decodeRecord
    rw [stripPrefixChars_append]
    exact decodeBody_encode n v true
  | false =>
    show decodeRecord ("SET ".toList ++ (escapeChars n ++ ':' :: escapeChars v)) = _
    unfold decodeRecord
    have hfail : stripPrefixChars "SET_EXPORT ".toList
        ("SET ".toList ++ (escapeChars n ++ ':' :: escapeChars v)) = none := by
      simp [stripPrefixChars]
    rw [hfail, stripPrefixChars_append]
    exact decodeBody_encode n v false

theorem decodeBody_inv (rest : List Char) (ex : Bool) (r : UVarRecord)
    (h : decodeBody rest ex = some r) :
    rest = escapeChars r.name ++ ':' :: escapeChars r.value ∧ r.exported = ex := by
  unfold decodeBody at h
  cases hs : splitAtColon rest with
  | none => rw [hs] at h; exact absurd h (by simp)
  | some p =>
    obtain ⟨en, ev⟩ := p
    rw [hs] at h
    simp only [Option.bind_eq_bind, Option.some_bind] at h
    cases hn : unescapeChars en with
    | none => rw [hn] at h; exact absurd h (by simp)
    | some n =>
      rw [hn] at h
      cases hv : unescapeChars ev with
      | none => rw [hv] at h; exact absurd h (by simp)
      | some v =>
        rw [hv] at h
        simp only [Option.some_bind, pure, Option.some.injEq] at h
        obtain ⟨hl, _⟩ := splitAtColon_eq rest en ev hs
        subst h
        refine ⟨?_, rfl⟩
        show rest = escapeChars n ++ ':' :: escapeChars v
        rw [hl, escape_unescape en n hn, escape_unescape ev v hv]

theorem encode_decodeRecord (x : List Char) (r : UVarRecord)
    (h : decodeRecord x = some r) : encodeRecord r = x := by
  unfold decodeRecord at h
  cases h1 : stripPrefixChars "SET_EXPORT ".toList x with
  | some rest =>
    rw [h1] at h
    obtain ⟨hb, hex⟩ := decodeBody_inv rest true r h
    have hx := stripPrefixChars_eq _ _ _ h1
    rw [encodeRecord, hex, if_pos rfl, ← hb, hx]
  | none =>
    rw [h1] at h
    cases h2 : stripPrefixChars "SET ".toList x with
    | some rest =>
      rw [h2] at h
      obtain ⟨hb, hex⟩ := decodeBody_inv rest false r h
      have hx := stripPrefixChars_eq _ _ _ h2
      rw [encodeRecord, hex, if_neg (by simp), ← hb, hx]
    | none => rw [h2] at h; exact absurd h (by simp)

/-! ### Sync engine lemmas -/

theorem Snapshot.get_cons (k' : String) (v : UVar) (rest : Snapshot) (k : String) :
    Snapshot.get ((k', v) :: rest) k = if k' = k then some v else rest.get k := rfl

theorem Snapshot.get_append (a b : Snapshot) (k : String) :
    (a ++ b).get k = match a.get k with
      | some v => some v
      | none => b.get k := by
  induction a with
  | nil => rfl
  | cons p rest ih =>
    obtain ⟨k', v⟩ := p
    by_cases h : k' = k
    · rw [List.cons_append, Snapshot.get_cons, Snapshot.get_cons, if_pos h, if_pos h]
    · rw [List.cons_append, Snapshot.get_cons, Snapshot.get_cons, if_neg h, if_neg h, ih]

theorem Snapshot.get_filter_not_mem (s : Snapshot) (pending : List String)
    (k : String) :
    Snapshot.get (s.filter (fun p => p.1 ∉ pending)) k =
      if k ∈ pending then none else s.get k := by
  induction s with
  | nil => simp [Snapshot.get]
  | cons p rest ih =>
    obtain ⟨k', v⟩ := p
    by_cases hk' : k' ∈ pending
    · rw [List.filter_cons_of_neg (by simpa using hk'), ih]
      by_cases h : k' = k
      · subst h; rw [if_pos hk', if_pos hk']
      · rw [Snapshot.get_cons, if_neg h]
    · rw [List.filter_cons_of_pos (by simpa using hk'), Snapshot.get_cons,
        Snapshot.get_cons]
      by_cases h : k' = k
      · subst h; rw [if_pos rfl, if_pos rfl, if_neg hk']
      · rw [if_neg h, if_neg h, ih]

theorem Snapshot.get_filter_mem (s : Snapshot) (pending : List String)
    (k : String) :
    Snapshot.get (s.filter (fun p => p.1 ∈ pending)) k =
      if k ∈ pending then s.get k else none := by
  induction s with
  | nil => simp [Snapshot.get]
  | cons p rest ih =>
    obtain ⟨k', v⟩ := p
    by_cases hk' : k' ∈ pending
    · rw [List.filter_cons_of_pos (by simpa using hk'), Snapshot.get_cons,
        Snapshot.get_cons]
      by_cases h : k' = k
      · subst h; rw [if_pos rfl, if_pos rfl, if_pos hk']
      · rw [if_neg h, if_neg h, ih]
    · rw [List.filter_cons_of_neg (by simpa using hk'), ih]
      by_cases h : k' = k
      · subst h; rw [if_neg hk', if_neg hk']
      · rw [Snapshot.get_cons, if_neg h]

/-- The merged snapshot reads the local table at pending keys and the
remote snapshot everywhere else. -/
theorem mergeSnapshot_get (r t : Snapshot) (pending : List String) (k : String) :
    (mergeSnapshot r t pending).get k =
      if k ∈ pending then t.get k else r.get k := by
  unfold mergeSnapshot
  rw [Snapshot.get_append, Snapshot.get_filter_not_mem, Snapshot.get_filter_mem]
  by_cases hp : k ∈ pending
  · rw [if_pos hp, if_pos hp, if_pos hp]
  · rw [if_neg hp, if_neg hp, if_neg hp]
    cases r.get k <;> rfl

theorem diffKey_some_some (bv rv : UVar) (k : String) :
    diffKey (some bv) (some rv) k =
      if bv.value ≠ rv.value then some ⟨.set, k, rv.value⟩
      else if bv.exported ≠ rv.exported then some ⟨.setExportOnly, k, rv.value⟩
      else none := rfl

theorem diffKey_name (b r : Option UVar) (k : String) (e : ChangeEvent)
    (h : diffKey b r k = some e) : e.name = k := by
  match b, r with
  | some bv, some rv =>
    rw [diffKey_some_some] at h
    by_cases h1 : bv.value ≠ rv.value
    · rw [if_pos h1] at h
      cases h; rfl
    · rw [if_neg h1] at h
      by_cases h2 : bv.exported ≠ rv.exported
      · rw [if_pos h2] at h; cases h; rfl
      · rw [if_neg h2] at h; exact Option.noConfusion h
  | some bv, none => cases h; rfl
  | none, some rv => cases h; rfl
  | none, none => exact Option.noConfusion h

theorem filter_name_filterMap (l : List String) (hnd : l.Nodup)
    (f : String → Option ChangeEvent)
    (hf : ∀ k' e, f k' = some e → e.name = k') (k : String) :
    (l.filterMap f).filter (fun e => e.name = k) =
      if k ∈ l then (f k).toList else [] := by
  induction l with
  | nil => simp
  | cons a t ih =>
    obtain ⟨ha, hnd'⟩ := List.nodup_cons.mp hnd
    have ihr := ih hnd'
    by_cases hak : a = k
    · subst hak
      cases hfa : f a with
      | none =>
        rw [List.filterMap_cons_none hfa, ihr, if_neg ha,
          if_pos (List.mem_cons_self a t)]
        rfl
      | some e =>
        have hname : e.name = a := hf a e hfa
        rw [List.filterMap_cons_some hfa,
          List.filter_cons_of_pos (by simp [hname]), ihr, if_neg ha,
          if_pos (List.mem_cons_self a t)]
        rfl
    · have hnotmem : ¬ k ∈ a :: t → ¬ k ∈ t := fun h hk =>
        h (List.mem_cons_of_mem a hk)
      cases hfa : f a with
      | none =>
        rw [List.filterMap_cons_none hfa, ihr]
        by_cases hk : k ∈ t
        · rw [if_pos hk, if_pos (List.mem_cons_of_mem a hk)]
        · rw [if_neg hk, if_neg ?hcm]
          case hcm =>
            intro h
            rcases List.mem_cons.mp h with h1 | h1
            · exact hak h1.symm
            · exact hk h1
      | some e =>
        have hname : e.name = a := hf a e hfa
        rw [List.filterMap_cons_some hfa,
          List.filter_cons_of_neg (by simp [hname]; exact hak),
          ihr]
        by_cases hk : k ∈ t
        · rw [if_pos hk, if_pos (List.mem_cons_of_mem a hk)]
        · rw [if_neg hk, if_neg ?hcm2]
          case hcm2 =>
            intro h
            rcases List.mem_cons.mp h with h1 | h1
            · exact hak h1.symm
            · exact hk h1

/-- The events of a diff carrying a given name are exactly the
classification of that one key. -/
theorem diffSnapshots_filter_name (b r : Snapshot) (k : String) :
    (diffSnapshots b r).filter (fun e => e.name = k) =
      if k ∈ (keysOf b ++ keysOf r).dedup
        then (diffKey (b.get k) (r.get k) k).toList else [] := by
  unfold diffSnapshots
  exact filter_name_filterMap _ (List.nodup_dedup _) _
    (fun k' e h => diffKey_name (b.get k') (r.get k') k' e h) k

theorem Snapshot.get_some_mem_keys (s : Snapshot) (k : String) (v : UVar)
    (h : s.get k = some v) : k ∈ keysOf s := by
  induction s with
  | nil => exact Option.noConfusion h
  | cons p rest ih =>
    obtain ⟨k', v'⟩ := p
    rw [Snapshot.get_cons] at h
    by_cases hk : k' = k
    · subst hk; exact List.mem_cons_self _ _
    · rw [if_neg hk] at h
      exact List.mem_cons_of_mem _ (ih h)

theorem diffKey_refl (x : Option UVar) (k : String) : diffKey x x k = none := by
  match x with
  | none => rfl
  | some v => rw [diffKey_some_some]; simp

/-- Filtering the changes for a non-pending name commutes past the
pending filter. -/
theorem filter_pending_filter_name (l : List ChangeEvent)
    (pending : List String) (k : String) (hp : k ∉ pending) :
    (l.filter (fun e => e.name ∉ pending)).filter (fun e => e.name = k) =
      l.filter (fun e => e.name = k) := by
  induction l with
  | nil => rfl
  | cons e t ih =>
    by_cases hek : e.name = k
    · have hnp : e.name ∉ pending := by rw [hek]; exact hp
      rw [List.filter_cons_of_pos (by simpa using hnp),
        List.filter_cons_of_pos (by simpa using hek),
        List.filter_cons_of_pos (by simpa using hek), ih]
    · by_cases hnp : e.name ∉ pending
      · rw [List.filter_cons_of_pos (by simpa using hnp),
          List.filter_cons_of_neg (by simpa using hek),
          List.filter_cons_of_neg (by simpa using hek), ih]
      · rw [List.filter_cons_of_neg (by simpa using hnp),
          List.filter_cons_of_neg (by simpa using hek), ih]

/-- A pending name never survives the pending filter. -/
theorem filter_pending_name_mem (l : List ChangeEvent)
    (pending : List String) (k : String) (hp : k ∈ pending) :
    (l.filter (fun e => e.name ∉ pending)).filter (fun e => e.name = k) = [] := by
  induction l with
  | nil => rfl
  | cons e t ih =>
    by_cases hnp : e.name ∉ pending
    · rw [List.filter_cons_of_pos (by simpa using hnp)]
      have hek : ¬ e.name = k := fun h => hnp (h ▸ hp)
      rw [List.filter_cons_of_neg (by simpa using hek), ih]
    · rw [List.filter_cons_of_neg (by simpa using hnp), ih]

/-! ### Claims about the sync engine -/

/-- C1: for every key with a pending local write (set) or pending deletion
(remove), the merged snapshot that `sync()` writes back and adopts takes
the local table's state for that key — the local value/export wins over
any conflicting remote state, and a locally deleted key is dropped from
the merge even when the freshly read remote snapshot still contains it:
a local deletion is never undone by a stale external snapshot. -/
theorem c1_local_pending_wins (s : EnvUniversal) (r : Snapshot) (k : String)
    (hk : k ∈ s.pending) (res : Except SyncError (List ChangeEvent))
    (st' : EnvUniversal) (file' : Option Snapshot)
    (hsync : s.sync (some r) = (res, st', file')) :
    file' = some st'.table ∧
    st'.table.get k = s.table.get k ∧
    (s.table.get k = none → st'.table.get k = none) := by
  unfold EnvUniversal.sync at hsync
  simp only [Prod.mk.injEq] at hsync
  obtain ⟨hres, hst, hfile⟩ := hsync
  subst hst
  subst hfile
  have hm := mergeSnapshot_get r s.table s.pending k
  rw [if_pos hk] at hm
  refine ⟨rfl, hm, fun h => ?_⟩
  show Snapshot.get (mergeSnapshot r s.table s.pending) k = none
  rw [hm, h]

/-- Witness for C1: in `sampleLocal`, "d" is pending-deleted and survives
neither in the written file nor in the adopted table, though
`sampleRemote` still contains it. -/
theorem c1_local_pending_wins_witness :
    ("d" ∈ sampleLocal.pending) ∧
    ((sampleLocal.sync (some sampleRemote)).2.2 =
        some (sampleLocal.sync (some sampleRemote)).2.1.table ∧
      (sampleLocal.sync (some sampleRemote)).2.1.table.get "d" =
        sampleLocal.table.get "d" ∧
      (sampleLocal.table.get "d" = none →
        (sampleLocal.sync (some sampleRemote)).2.1.table.get "d" = none)) :=
  ⟨by decide,
    c1_local_pending_wins sampleLocal sampleRemote "d" (by decide) _ _ _ rfl⟩

/-- C2: the change list `sync()` returns to the caller never contains an
event for a key the local process itself had pending — whatever the
remote peers wrote to that key in the same window — and it consists
exactly of the step-2 diff entries for the non-pending keys. -/
theorem c2_self_writes_not_reported (s : EnvUniversal) (r : Snapshot)
    (k : String) (hk : k ∈ s.pending) (changes : List ChangeEvent)
    (st' : EnvUniversal) (file' : Option Snapshot)
    (hsync : s.sync (some r) = (.ok changes, st', file')) :
    (∀ e ∈ changes, e.name ≠ k) ∧
    changes = (diffSnapshots s.baseline r).filter (fun e => e.name ∉ s.pending) := by
  unfold EnvUniversal.sync at hsync
  simp only [Prod.mk.injEq, Except.ok.injEq] at hsync
  obtain ⟨hch, hst, hfile⟩ := hsync
  subst hch
  refine ⟨?_, rfl⟩
  intro e he hek
  have hmem := List.of_mem_filter he
  rw [hek] at hmem
  simp only [decide_eq_true_eq] at hmem
  exact hmem hk

/-- Witness for C2: `sampleLocal` has "k" pending; its sync against
`sampleRemote`, which carries a different value for "k", reports no event
for "k". -/
theorem c2_self_writes_not_reported_witness :
    ("k" ∈ sampleLocal.pending) ∧
    ((∀ e ∈ (diffSnapshots sampleLocal.baseline sampleRemote).filter
          (fun e => e.name ∉ sampleLocal.pending), e.name ≠ "k") ∧
      (diffSnapshots sampleLocal.baseline sampleRemote).filter
          (fun e => e.name ∉ sampleLocal.pending) =
        (diffSnapshots sampleLocal.baseline sampleRemote).filter
          (fun e => e.name ∉ sampleLocal.pending)) :=
  ⟨by decide,
    c2_self_writes_not_reported sampleLocal sampleRemote "k" (by decide)
      _ _ _ rfl⟩

/-- C8: when the shared file is unreadable (it cannot be opened or lacks
even a version marker, modelled as a `none` remote), `load()` returns
false leaving the table unchanged, and `sync()` returns `SyncError.io`
leaving table and baseline untouched and writing nothing — every I/O
failure is retryable with no partial state committed. -/
theorem c8_io_failure_retryable (s : EnvUniversal) :
    s.load none = (false, s) ∧ s.sync none = (.error .io, s, none) :=
  ⟨rfl, rfl⟩

/-- C3: when a peer changed only the export flag of a key — value
unchanged — the observing sync returns exactly one event for that key,
a SetExportOnly carrying the unchanged value, never a Set; and any key
whose value and export flag both match the baseline produces no event. -/
theorem c3_export_only_event (s : EnvUniversal) (r : Snapshot) (k v : String)
    (e1 e2 : Bool) (hb : s.baseline.get k = some ⟨v, e1⟩)
    (hr : r.get k = some ⟨v, e2⟩) (hne : e1 ≠ e2) (hp : k ∉ s.pending)
    (changes : List ChangeEvent) (st' : EnvUniversal) (file' : Option Snapshot)
    (hsync : s.sync (some r) = (.ok changes, st', file')) :
    changes.filter (fun e => e.name = k) = [⟨.setExportOnly, k, v⟩] ∧
    (∀ k', s.baseline.get k' = r.get k' →
      changes.filter (fun e => e.name = k') = []) := by
  unfold EnvUniversal.sync at hsync
  simp only [Prod.mk.injEq, Except.ok.injEq] at hsync
  obtain ⟨hch, hst, hfile⟩ := hsync
  subst hch
  constructor
  · rw [filter_pending_filter_name _ _ _ hp, diffSnapshots_filter_name]
    have hmem : k ∈ (keysOf s.baseline ++ keysOf r).dedup := by
      rw [List.mem_dedup, List.mem_append]
      exact Or.inl (Snapshot.get_some_mem_keys _ _ _ hb)
    rw [if_pos hmem, hb, hr, diffKey_some_some]
    simp [hne]
  · intro k' hk'
    by_cases hp' : k' ∈ s.pending
    · exact filter_pending_name_mem _ _ _ hp'
    · rw [filter_pending_filter_name _ _ _ hp', diffSnapshots_filter_name, hk',
        diffKey_refl]
      split <;> rfl

/-- Witness for C3: a peer flipped the export flag of "b" (value "1");
the observer's sync yields exactly one SetExportOnly for "b" with value
"1", and the untouched key "u" yields no event. -/
theorem c3_export_only_event_witness :
    (sampleObserver.baseline.get "b" = some ⟨"1", false⟩) ∧
    (sampleRemoteChanged.get "b" = some ⟨"1", true⟩) ∧
    (((diffSnapshots sampleObserver.baseline sampleRemoteChanged).filter
        (fun e => e.name ∉ sampleObserver.pending)).filter
          (fun e => e.name = "b") = [⟨.setExportOnly, "b", "1"⟩]) ∧
    (((diffSnapshots sampleObserver.baseline sampleRemoteChanged).filter
        (fun e => e.name ∉ sampleObserver.pending)).filter
          (fun e => e.name = "u") = []) :=
  ⟨by decide, by decide,
    (c3_export_only_event sampleObserver sampleRemoteChanged "b" "1" false true
      (by decide) (by decide) (by decide) (by decide) _ _ _ rfl).1,
    (c3_export_only_event sampleObserver sampleRemoteChanged "b" "1" false true
      (by decide) (by decide) (by decide) (by decide) _ _ _ rfl).2 "u"
      (by decide)⟩

/-- C4: a key present in the baseline but absent from the freshly loaded
remote snapshot is reported by the next sync as exactly one Erase event,
carrying the empty string as its value. -/
theorem c4_erase_event (s : EnvUniversal) (r : Snapshot) (k : String)
    (bv : UVar) (hb : s.baseline.get k = some bv) (hr : r.get k = none)
    (hp : k ∉ s.pending) (changes : List ChangeEvent) (st' : EnvUniversal)
    (file' : Option Snapshot)
    (hsync : s.sync (some r) = (.ok changes, st', file')) :
    changes.filter (fun e => e.name = k) = [⟨.erase, k, ""⟩] := by
  unfold EnvUniversal.sync at hsync
  simp only [Prod.mk.injEq, Except.ok.injEq] at hsync
  obtain ⟨hch, hst, hfile⟩ := hsync
  subst hch
  rw [filter_pending_filter_name _ _ _ hp, diffSnapshots_filter_name]
  have hmem : k ∈ (keysOf s.baseline ++ keysOf r).dedup := by
    rw [List.mem_dedup, List.mem_append]
    exact Or.inl (Snapshot.get_some_mem_keys _ _ _ hb)
  rw [if_pos hmem, hb, hr]
  rfl

/-- C5: the codec round-trips losslessly for every record — whatever
bytes the name and value hold, decoding an encoded record yields it back,
and every line the decoder accepts re-encodes to that very line — while a
malformed or truncated line (here a dangling escape) decodes to no record
instead of failing; both codec functions are total, so they never fail on
arbitrary content. -/
theorem c5_codec_round_trip :
    (∀ x r, decodeRecord x = some r → encodeRecord r = x) ∧
    (∀ r, decodeRecord (encodeRecord r) = some r) ∧
    decodeRecord "SET a:\\".toList = none :=
  ⟨encode_decodeRecord, decode_encodeRecord, by decide⟩

/-- Witness for C5: the round trip evaluated on a concrete line and on a
concrete record containing a newline. -/
theorem c5_codec_round_trip_witness :
    (decodeRecord "SET a:b".toList = some ⟨['a'], ['b'], false⟩) ∧
    encodeRecord ⟨['a'], ['b'], false⟩ = "SET a:b".toList ∧
    decodeRecord (encodeRecord ⟨['x'], ['y', '\n'], true⟩) =
      some ⟨['x'], ['y', '\n'], true⟩ :=
  ⟨by decide,
    c5_codec_round_trip.1 "SET a:b".toList ⟨['a'], ['b'], false⟩ (by decide),
    c5_codec_round_trip.2.1 ⟨['x'], ['y', '\n'], true⟩⟩

/-- Witness for C4: a peer deleted "g"; the observer's sync reports
exactly one Erase for "g" with an empty value. -/
theorem c4_erase_event_witness :
    (sampleObserver.baseline.get "g" = some ⟨"1", false⟩) ∧
    (sampleRemoteChanged.get "g" = none) ∧
    ((diffSnapshots sampleObserver.baseline sampleRemoteChanged).filter
        (fun e => e.name ∉ sampleObserver.pending)).filter
          (fun e => e.name = "g") = [⟨.erase, "g", ""⟩] :=
  ⟨by decide, by decide,
    c4_erase_event sampleObserver sampleRemoteChanged "g" ⟨"1", false⟩
      (by decide) (by decide) (by decide) _ _ _ rfl⟩

/-! ### Multi-process lemmas -/

theorem Snapshot.get_eraseKey (s : Snapshot) (k' k : String) :
    Snapshot.get (s.eraseKey k') k = if k' = k then none else s.get k := by
  unfold Snapshot.eraseKey
  induction s with
  | nil =>
    show (none : Option UVar) = if k' = k then none else none
    split <;> rfl
  | cons p rest ih =>
    obtain ⟨k'', v⟩ := p
    by_cases h : k'' = k'
    · rw [List.filter_cons_of_neg (by simpa using h), ih, Snapshot.get_cons]
      by_cases hk : k' = k
      · rw [if_pos hk, if_pos hk]
      · rw [if_neg hk, if_neg hk, if_neg (fun hh => hk (h.symm.trans hh))]
    · rw [List.filter_cons_of_pos (by simpa using h), Snapshot.get_cons, ih,
        Snapshot.get_cons]
      by_cases hk2 : k'' = k
      · rw [if_pos hk2, if_pos hk2, if_neg (fun hh => h (hk2.trans hh.symm))]
      · rw [if_neg hk2, if_neg hk2]

theorem Snapshot.get_setKey (s : Snapshot) (k' : String) (v : UVar)
    (k : String) :
    Snapshot.get (s.setKey k' v) k = if k' = k then some v else s.get k := by
  unfold Snapshot.setKey
  rw [Snapshot.get_cons]
  by_cases h : k' = k
  · rw [if_pos h, if_pos h]
  · rw [if_neg h, if_neg h, Snapshot.get_eraseKey, if_neg h]

theorem applyOpsKey_append (a b : List UvarOp) (k : String) (x : Option UVar) :
    applyOpsKey (a ++ b) k x = applyOpsKey b k (applyOpsKey a k x) := by
  unfold applyOpsKey
  rw [List.foldl_append]

theorem applyOpsKey_not_touched : ∀ (ops : List UvarOp) (k : String)
    (x : Option UVar), (∀ op ∈ ops, op.key ≠ k) → applyOpsKey ops k x = x := by
  intro ops k
  induction ops with
  | nil => intro x _; rfl
  | cons op t ih =>
    intro x h
    have hop : op.key ≠ k := h op (List.mem_cons_self _ _)
    have ht : ∀ op' ∈ t, op'.key ≠ k :=
      fun op' h' => h op' (List.mem_cons_of_mem _ h')
    cases op with
    | setVar a b c =>
      have hop' : a ≠ k := hop
      show applyOpsKey t k (if a = k then some ⟨b, c⟩ else x) = x
      rw [if_neg hop']
      exact ih x ht
    | removeVar a =>
      have hop' : a ≠ k := hop
      show applyOpsKey t k (if a = k then none else x) = x
      rw [if_neg hop']
      exact ih x ht

theorem applyOps_table_get : ∀ (ops : List UvarOp) (s : EnvUniversal)
    (k : String), Snapshot.get (applyOps s ops).table k =
      applyOpsKey ops k (Snapshot.get s.table k) := by
  intro ops
  induction ops with
  | nil => intro s k; rfl
  | cons op t ih =>
    intro s k
    cases op with
    | setVar k' v ex =>
      show Snapshot.get (applyOps (s.set k' v ex) t).table k =
        applyOpsKey t k (if k' = k then some ⟨v, ex⟩ else Snapshot.get s.table k)
      rw [ih]
      congr 1
      show Snapshot.get (Snapshot.setKey s.table k' ⟨v, ex⟩) k = _
      exact Snapshot.get_setKey s.table k' ⟨v, ex⟩ k
    | removeVar k' =>
      show Snapshot.get (applyOps (s.remove k') t).table k =
        applyOpsKey t k (if k' = k then none else Snapshot.get s.table k)
      rw [ih]
      congr 1
      show Snapshot.get (Snapshot.eraseKey s.table k') k = _
      exact Snapshot.get_eraseKey s.table k' k

theorem applyOps_pending_mem : ∀ (ops : List UvarOp) (s : EnvUniversal)
    (x : String), x ∈ (applyOps s ops).pending →
      x ∈ s.pending ∨ ∃ op ∈ ops, op.key = x := by
  intro ops
  induction ops with
  | nil => intro s x hx; exact Or.inl hx
  | cons op t ih =>
    intro s x hx
    rcases ih (applyOp s op) x hx with h | h
    · cases op with
      | setVar k' v ex =>
        rcases List.mem_cons.mp h with h1 | h1
        · exact Or.inr ⟨.setVar k' v ex, List.mem_cons_self _ _, h1.symm⟩
        · exact Or.inl h1
      | removeVar k' =>
        rcases List.mem_cons.mp h with h1 | h1
        · exact Or.inr ⟨.removeVar k', List.mem_cons_self _ _, h1.symm⟩
        · exact Or.inl h1
    · obtain ⟨op', hop', hk⟩ := h
      exact Or.inr ⟨op', List.mem_cons_of_mem _ hop', hk⟩

theorem applyOps_pending_mono : ∀ (ops : List UvarOp) (s : EnvUniversal)
    (x : String), x ∈ s.pending → x ∈ (applyOps s ops).pending := by
  intro ops
  induction ops with
  | nil => intro s x h; exact h
  | cons op t ih =>
    intro s x h
    refine ih (applyOp s op) x ?_
    cases op with
    | setVar k' v ex => exact List.mem_cons_of_mem _ h
    | removeVar k' => exact List.mem_cons_of_mem _ h

theorem applyOps_pending_of_touched : ∀ (ops : List UvarOp) (s : EnvUniversal)
    (k : String), (∃ op ∈ ops, op.key = k) → k ∈ (applyOps s ops).pending := by
  intro ops
  induction ops with
  | nil =>
    intro s k h
    obtain ⟨op, hop, _⟩ := h
    exact absurd hop (List.not_mem_nil op)
  | cons op t ih =>
    intro s k h
    obtain ⟨op', hop', hk⟩ := h
    rcases List.mem_cons.mp hop' with h1 | h1
    · subst h1
      refine applyOps_pending_mono t (applyOp s op') k ?_
      cases op' with
      | setVar a b c =>
        show k ∈ a :: s.pending
        cases hk
        exact List.mem_cons_self _ _
      | removeVar a =>
        show k ∈ a :: s.pending
        cases hk
        exact List.mem_cons_self _ _
    · exact ih (applyOp s op) k ⟨op', h1, hk⟩

theorem sysStep_eq (sys : SysState) (i : Nat) (ops : List UvarOp) :
    sysStep sys i ops =
      { file := mergeSnapshot sys.file (applyOps (sys.procs i) ops).table
          (applyOps (sys.procs i) ops).pending,
        procs := fun j => if j = i then
            { table := mergeSnapshot sys.file (applyOps (sys.procs i) ops).table
                (applyOps (sys.procs i) ops).pending,
              baseline := mergeSnapshot sys.file
                (applyOps (sys.procs i) ops).table
                (applyOps (sys.procs i) ops).pending,
              pending := [] }
          else sys.procs j } := rfl

theorem sysStep_file_get (sys : SysState) (i : Nat) (ops : List UvarOp)
    (k : String) :
    (sysStep sys i ops).file.get k =
      if k ∈ (applyOps (sys.procs i) ops).pending
      then Snapshot.get (applyOps (sys.procs i) ops).table k
      else sys.file.get k := by
  rw [sysStep_eq]
  exact mergeSnapshot_get _ _ _ k

theorem sysStep_procs_same (sys : SysState) (i : Nat) (ops : List UvarOp) :
    (sysStep sys i ops).procs i =
      { table := mergeSnapshot sys.file (applyOps (sys.procs i) ops).table
          (applyOps (sys.procs i) ops).pending,
        baseline := mergeSnapshot sys.file (applyOps (sys.procs i) ops).table
          (applyOps (sys.procs i) ops).pending,
        pending := [] } := by
  simp [sysStep_eq]

theorem sysStep_procs_other (sys : SysState) (i : Nat) (ops : List UvarOp)
    (j : Nat) (h : j ≠ i) :
    (sysStep sys i ops).procs j = sys.procs j := by
  simp [sysStep_eq, h]

theorem sysRun_cons (sys : SysState) (i : Nat) (ops : List UvarOp)
    (rest : List (Nat × List UvarOp)) :
    sysRun sys ((i, ops) :: rest) = sysRun (sysStep sys i ops) rest := rfl

/-- Phase-1 invariant: through any interleaving of owned batches, every
pending list returns to empty after its sync, the file agrees with each
owner's table on its keys, and each key of the file carries exactly the
effect of its owner's batches so far. -/
theorem sysRun_inv (owner : String → Nat) :
    ∀ (sched : List (Nat × List UvarOp)) (sys : SysState),
    (∀ j, (sys.procs j).pending = []) →
    (∀ k, sys.file.get k = Snapshot.get ((sys.procs (owner k)).table) k) →
    SchedOwned owner sched →
    (∀ j, ((sysRun sys sched).procs j).pending = []) ∧
    (∀ k, (sysRun sys sched).file.get k =
      Snapshot.get (((sysRun sys sched).procs (owner k)).table) k) ∧
    (∀ k, (sysRun sys sched).file.get k =
      applyOpsKey (batchesOf sched (owner k)) k (sys.file.get k)) := by
  intro sched
  induction sched with
  | nil => intro sys hpend hfile _; exact ⟨hpend, hfile, fun k => rfl⟩
  | cons pr rest ih =>
    obtain ⟨i, ops⟩ := pr
    intro sys hpend hfile howned
    have howhd : ∀ op ∈ ops, owner op.key = i :=
      fun op hop => howned (i, ops) (List.mem_cons_self _ _) op hop
    have howrest : SchedOwned owner rest :=
      fun p hp op hop => howned p (List.mem_cons_of_mem _ hp) op hop
    have hpend' : ∀ x, x ∈ (applyOps (sys.procs i) ops).pending →
        owner x = i := by
      intro x hx
      rcases applyOps_pending_mem ops (sys.procs i) x hx with h | h
      · rw [hpend i] at h
        exact absurd h (List.not_mem_nil x)
      · obtain ⟨op, hop, hk⟩ := h
        rw [← hk]
        exact howhd op hop
    have hpend1 : ∀ j, ((sysStep sys i ops).procs j).pending = [] := by
      intro j
      by_cases h : j = i
      · subst h
        rw [sysStep_procs_same]
      · rw [sysStep_procs_other _ _ _ _ h]
        exact hpend j
    have hfile1 : ∀ k, (sysStep sys i ops).file.get k =
        Snapshot.get (((sysStep sys i ops).procs (owner k)).table) k := by
      intro k
      by_cases hko : owner k = i
      · rw [hko, sysStep_procs_same, sysStep_file_get, mergeSnapshot_get]
      · rw [sysStep_procs_other _ _ _ _ hko, sysStep_file_get]
        have hkp : k ∉ (applyOps (sys.procs i) ops).pending :=
          fun hk => hko (hpend' k hk)
        rw [if_neg hkp]
        exact hfile k
    have hfilekey : ∀ k, (sysStep sys i ops).file.get k =
        applyOpsKey (if owner k = i then ops else []) k (sys.file.get k) := by
      intro k
      rw [sysStep_file_get]
      by_cases hko : owner k = i
      · rw [if_pos hko]
        by_cases htouch : ∃ op ∈ ops, op.key = k
        · rw [if_pos (applyOps_pending_of_touched ops (sys.procs i) k htouch),
            applyOps_table_get, hfile k, hko]
        · have hkp : k ∉ (applyOps (sys.procs i) ops).pending := by
            intro hk
            rcases applyOps_pending_mem ops (sys.procs i) k hk with h | h
            · rw [hpend i] at h
              exact absurd h (List.not_mem_nil k)
            · exact htouch h
          have hnt : ∀ op ∈ ops, op.key ≠ k :=
            fun op hop hkey => htouch ⟨op, hop, hkey⟩
          rw [if_neg hkp, applyOpsKey_not_touched ops k _ hnt]
      · rw [if_neg hko]
        have hkp : k ∉ (applyOps (sys.procs i) ops).pending :=
          fun hk => hko (hpend' k hk)
        rw [if_neg hkp]
        rfl
    obtain ⟨ih1, ih2, ih3⟩ := ih (sysStep sys i ops) hpend1 hfile1 howrest
    refine ⟨ih1, ih2, ?_⟩
    intro k
    have hb : batchesOf ((i, ops) :: rest) (owner k) =
        (if owner k = i then ops else []) ++ batchesOf rest (owner k) := by
      unfold batchesOf
      by_cases hko : owner k = i
      · rw [List.filterMap_cons_some (by rw [if_pos hko.symm]),
          List.flatten_cons, if_pos hko]
      · rw [List.filterMap_cons_none (by rw [if_neg (fun hh => hko hh.symm)]),
          if_neg hko]
        rfl
    rw [sysRun_cons, ih3 k, hfilekey k, ← applyOpsKey_append, ← hb]

/-- Barrier phase: with no pending changes anywhere, a round of syncs
leaves the file unchanged and makes every syncing process's table read
as the file. -/
theorem barrier_run : ∀ (order : List Nat) (sys : SysState),
    (∀ j, (sys.procs j).pending = []) →
    (∀ k, (sysRun sys (order.map (fun i => (i, [])))).file.get k =
      sys.file.get k) ∧
    (∀ j, ((sysRun sys (order.map (fun i => (i, [])))).procs j).pending = []) ∧
    (∀ j, j ∉ order →
      (sysRun sys (order.map (fun i => (i, [])))).procs j = sys.procs j) ∧
    (∀ j ∈ order, ∀ k,
      Snapshot.get ((sysRun sys (order.map (fun i => (i, [])))).procs j).table
        k = sys.file.get k) := by
  intro order
  induction order with
  | nil =>
    intro sys hpend
    exact ⟨fun k => rfl, hpend, fun j _ => rfl,
      fun j hj => absurd hj (List.not_mem_nil j)⟩
  | cons i rest ih =>
    intro sys hpend
    have hnil : ∀ k, k ∉ (applyOps (sys.procs i) []).pending := by
      intro k
      show k ∉ (sys.procs i).pending
      rw [hpend i]
      exact List.not_mem_nil k
    have hfileeq : ∀ k, (sysStep sys i []).file.get k = sys.file.get k := by
      intro k
      rw [sysStep_file_get, if_neg (hnil k)]
    have hproci : ∀ k,
        Snapshot.get ((sysStep sys i []).procs i).table k = sys.file.get k := by
      intro k
      rw [sysStep_procs_same]
      show Snapshot.get (mergeSnapshot sys.file (applyOps (sys.procs i) []).table
        (applyOps (sys.procs i) []).pending) k = _
      rw [mergeSnapshot_get, if_neg (hnil k)]
    have hpend1 : ∀ j, ((sysStep sys i []).procs j).pending = [] := by
      intro j
      by_cases h : j = i
      · subst h
        rw [sysStep_procs_same]
      · rw [sysStep_procs_other _ _ _ _ h]
        exact hpend j
    obtain ⟨ihf, ihp, ihu, iht⟩ := ih (sysStep sys i []) hpend1
    refine ⟨?_, ihp, ?_, ?_⟩
    · intro k
      rw [List.map_cons, sysRun_cons, ihf k, hfileeq k]
    · intro j hj
      have hji : j ≠ i := fun h => hj (h ▸ List.mem_cons_self i rest)
      have hjr : j ∉ rest := fun h => hj (List.mem_cons_of_mem _ h)
      rw [List.map_cons, sysRun_cons, ihu j hjr,
        sysStep_procs_other _ _ _ _ hji]
    · intro j hj k
      rw [List.map_cons, sysRun_cons]
      rcases List.mem_cons.mp hj with h1 | h1
      · subst h1
        by_cases hjr : j ∈ rest
        · rw [iht j hjr k, hfileeq k]
        · rw [ihu j hjr, hproci k]
      · rw [iht j h1 k, hfileeq k]

/-! ### Claim about multi-process convergence -/

/-- C6: N processes mutate pairwise-disjoint key sets against the same
path, each batch followed by a sync, in an arbitrary interleaving; after
a barrier at which every process syncs once more, every syncing process's
table — and a fresh load() of the file — holds exactly the union of the
surviving keys, each with the value its owner last set and without the
keys any owner removed. -/
theorem c6_disjoint_convergence (owner : String → Nat)
    (script : Nat → List UvarOp) (sched : List (Nat × List UvarOp))
    (order : List Nat) (howned : SchedOwned owner sched)
    (hcomplete : ∀ i, batchesOf sched i = script i) :
    (∀ k, (sysRun (sysRun SysState.start sched)
        (order.map (fun i => (i, [])))).file.get k =
      finalOf (script (owner k)) k) ∧
    (∀ j ∈ order, ∀ k,
      Snapshot.get ((sysRun (sysRun SysState.start sched)
        (order.map (fun i => (i, [])))).procs j).table k =
      finalOf (script (owner k)) k) ∧
    (∀ k, Snapshot.get ((EnvUniversal.init.load (some (sysRun (sysRun
        SysState.start sched) (order.map (fun i => (i, [])))).file)).2).table
        k = finalOf (script (owner k)) k) := by
  have hpend0 : ∀ j, ((SysState.start).procs j).pending = [] := fun j => rfl
  have hfile0 : ∀ k, (SysState.start).file.get k =
      Snapshot.get (((SysState.start).procs (owner k)).table) k := fun k => rfl
  obtain ⟨h1, h2, h3⟩ := sysRun_inv owner sched SysState.start hpend0 hfile0
    howned
  obtain ⟨bf, bp, bu, bt⟩ := barrier_run order (sysRun SysState.start sched) h1
  have hfinal : ∀ k, (sysRun (sysRun SysState.start sched)
      (order.map (fun i => (i, [])))).file.get k =
      finalOf (script (owner k)) k := by
    intro k
    rw [bf k, h3 k, hcomplete (owner k)]
    rfl
  refine ⟨hfinal, ?_, ?_⟩
  · intro j hj k
    rw [bt j hj k, h3 k, hcomplete (owner k)]
    rfl
  · intro k
    exact hfinal k

/-- Witness for C6: the two-process example — process 0 sets "x" and "y"
then deletes "x", process 1 sets "z", interleaved — converges: after the
barrier the file and both tables hold exactly "y" and "z" with their last
written values, and "x" is gone. -/
theorem c6_disjoint_convergence_witness :
    (SchedOwned c6Owner c6Sched) ∧
    ((sysRun (sysRun SysState.start c6Sched)
        (c6Order.map (fun i => (i, [])))).file.get "x" = none) ∧
    ((sysRun (sysRun SysState.start c6Sched)
        (c6Order.map (fun i => (i, [])))).file.get "y" = some ⟨"2", false⟩) ∧
    ((sysRun (sysRun SysState.start c6Sched)
        (c6Order.map (fun i => (i, [])))).file.get "z" = some ⟨"3", false⟩) ∧
    (Snapshot.get ((sysRun (sysRun SysState.start c6Sched)
        (c6Order.map (fun i => (i, [])))).procs 0).table "z" =
      some ⟨"3", false⟩) ∧
    (Snapshot.get ((sysRun (sysRun SysState.start c6Sched)
        (c6Order.map (fun i => (i, [])))).procs 1).table "y" =
      some ⟨"2", false⟩) :=
  ⟨by decide,
    ((c6_disjoint_convergence c6Owner c6Script c6Sched c6Order (by decide)
      (fun i => match i with
        | 0 => rfl
        | 1 => rfl
        | _ + 2 => rfl)).1 "x").trans (by decide),
    ((c6_disjoint_convergence c6Owner c6Script c6Sched c6Order (by decide)
      (fun i => match i with
        | 0 => rfl
        | 1 => rfl
        | _ + 2 => rfl)).1 "y").trans (by decide),
    ((c6_disjoint_convergence c6Owner c6Script c6Sched c6Order (by decide)
      (fun i => match i with
        | 0 => rfl
        | 1 => rfl
        | _ + 2 => rfl)).1 "z").trans (by decide),
    ((c6_disjoint_convergence c6Owner c6Script c6Sched c6Order (by decide)
      (fun i => match i with
        | 0 => rfl
        | 1 => rfl
        | _ + 2 => rfl)).2.1 0 (by decide) "z").trans (by decide),
    ((c6_disjoint_convergence c6Owner c6Script c6Sched c6Order (by decide)
      (fun i => match i with
        | 0 => rfl
        | 1 => rfl
        | _ + 2 => rfl)).2.1 1 (by decide) "y").trans (by decide)⟩

/-! ### Notifier lemmas -/

theorem pollingPoll_counter (st : PollingState) (j : Nat) :
    ((pollingPoll st j).2).counter = st.counter := by
  unfold pollingPoll
  split <;> rfl

theorem pollingPoll_lastSeen_self (st : PollingState) (j : Nat) :
    ((pollingPoll st j).2).lastSeen j = st.counter := by
  unfold pollingPoll
  by_cases h : st.lastSeen j ≠ st.counter
  · rw [if_pos h]
    show (if j = j then st.counter else st.lastSeen j) = st.counter
    rw [if_pos rfl]
  · rw [if_neg h]
    push_neg at h
    exact h

theorem pollingPoll_lastSeen_other (st : PollingState) (j i : Nat)
    (h : i ≠ j) : ((pollingPoll st j).2).lastSeen i = st.lastSeen i := by
  unfold pollingPoll
  by_cases hc : st.lastSeen j ≠ st.counter
  · rw [if_pos hc]
    show (if i = j then st.counter else st.lastSeen i) = st.lastSeen i
    rw [if_neg h]
  · rw [if_neg hc]

theorem pollingDrain_counter : ∀ (order : List Nat) (st : PollingState),
    (pollingDrain st order).counter = st.counter := by
  intro order
  induction order with
  | nil => intro st; rfl
  | cons j rest ih =>
    intro st
    show (pollingDrain ((pollingPoll st j).2) rest).counter = st.counter
    rw [ih, pollingPoll_counter]

theorem pollingDrain_lastSeen_not_mem : ∀ (order : List Nat)
    (st : PollingState) (i : Nat), i ∉ order →
    (pollingDrain st order).lastSeen i = st.lastSeen i := by
  intro order
  induction order with
  | nil => intro st i _; rfl
  | cons j rest ih =>
    intro st i h
    have hij : i ≠ j := fun hh => h (hh ▸ List.mem_cons_self j rest)
    have hir : i ∉ rest := fun hh => h (List.mem_cons_of_mem _ hh)
    show (pollingDrain ((pollingPoll st j).2) rest).lastSeen i = st.lastSeen i
    rw [ih _ i hir, pollingPoll_lastSeen_other st j i hij]

theorem pollingDrain_lastSeen_mem : ∀ (order : List Nat) (st : PollingState)
    (i : Nat), i ∈ order → (pollingDrain st order).lastSeen i = st.counter := by
  intro order
  induction order with
  | nil => intro st i h; exact absurd h (List.not_mem_nil i)
  | cons j rest ih =>
    intro st i h
    show (pollingDrain ((pollingPoll st j).2) rest).lastSeen i = st.counter
    by_cases hir : i ∈ rest
    · rw [ih _ i hir, pollingPoll_counter]
    · have hij : i = j := by
        rcases List.mem_cons.mp h with h1 | h1
        · exact h1
        · exact absurd h1 hir
      subst hij
      rw [pollingDrain_lastSeen_not_mem rest _ i hir, pollingPoll_lastSeen_self]

theorem pollingDrain_poll_false (order : List Nat) (st : PollingState)
    (i : Nat) (h : i ∈ order) :
    (pollingPoll (pollingDrain st order) i).1 = false := by
  unfold pollingPoll
  rw [if_neg ?hc]
  case hc =>
    rw [pollingDrain_lastSeen_mem order st i h, pollingDrain_counter]
    exact fun hh => hh rfl

theorem notifydPoll_flag_self (st : NotifydState) (j : Nat) :
    ((notifydPoll st j).2).flag j = false := by
  show (if j = j then false else st.flag j) = false
  rw [if_pos rfl]

theorem notifydPoll_flag_other (st : NotifydState) (j i : Nat) (h : i ≠ j) :
    ((notifydPoll st j).2).flag i = st.flag i := by
  show (if i = j then false else st.flag i) = st.flag i
  rw [if_neg h]

theorem notifydDrain_flag_not_mem : ∀ (order : List Nat) (st : NotifydState)
    (i : Nat), i ∉ order → (notifydDrain st order).flag i = st.flag i := by
  intro order
  induction order with
  | nil => intro st i _; rfl
  | cons j rest ih =>
    intro st i h
    have hij : i ≠ j := fun hh => h (hh ▸ List.mem_cons_self j rest)
    have hir : i ∉ rest := fun hh => h (List.mem_cons_of_mem _ hh)
    show (notifydDrain ((notifydPoll st j).2) rest).flag i = st.flag i
    rw [ih _ i hir, notifydPoll_flag_other st j i hij]

theorem notifydDrain_flag_mem : ∀ (order : List Nat) (st : NotifydState)
    (i : Nat), i ∈ order → (notifydDrain st order).flag i = false := by
  intro order
  induction order with
  | nil => intro st i h; exact absurd h (List.not_mem_nil i)
  | cons j rest ih =>
    intro st i h
    show (notifydDrain ((notifydPoll st j).2) rest).flag i = false
    by_cases hir : i ∈ rest
    · exact ih _ i hir
    · have hij : i = j := by
        rcases List.mem_cons.mp h with h1 | h1
        · exact h1
        · exact absurd h1 hir
      subst hij
      rw [notifydDrain_flag_not_mem rest _ i hir, notifydPoll_flag_self]

/-! ### Claim about the notifiers -/

/-- C7: for every strategy, a freshly constructed notifier polls false
before any post; after exactly one post by one peer every peer's next
poll (or fd-readiness check) observes it; and after all peers drain —
the pipe respecting its settle time — every peer polls false again. -/
theorem c7_notifier_lifecycle (c : Nat) (i : Nat) (order : List Nat)
    (hmem : i ∈ order) :
    ((pollingPoll (PollingState.fresh c) i).1 = false ∧
      (notifydPoll NotifydState.fresh i).1 = false ∧
      (pipePoll PipeState.fresh i).1 = false) ∧
    ((pollingPoll (pollingPost (PollingState.fresh c)) i).1 = true ∧
      (notifydPoll (notifydPost NotifydState.fresh) i).1 = true ∧
      (pipePoll (pipePost PipeState.fresh) i).1 = true) ∧
    ((pollingPoll (pollingDrain (pollingPost (PollingState.fresh c)) order)
        i).1 = false ∧
      (notifydPoll (notifydDrain (notifydPost NotifydState.fresh) order)
        i).1 = false ∧
      (pipePoll (pipeSettle (pipePost PipeState.fresh)) i).1 = false) := by
  refine ⟨⟨?_, rfl, rfl⟩, ⟨?_, rfl, rfl⟩, ⟨?_, ?_, rfl⟩⟩
  · have h : ¬((PollingState.fresh c).lastSeen i ≠
        (PollingState.fresh c).counter) := fun hh => hh rfl
    unfold pollingPoll
    rw [if_neg h]
  · have h : (pollingPost (PollingState.fresh c)).lastSeen i ≠
        (pollingPost (PollingState.fresh c)).counter := by
      show c ≠ c + 1
      omega
    unfold pollingPoll
    rw [if_pos h]
  · exact pollingDrain_poll_false order (pollingPost (PollingState.fresh c))
      i hmem
  · show (notifydDrain (notifydPost NotifydState.fresh) order).flag i = false
    exact notifydDrain_flag_mem order _ i hmem

/-- Witness for C7, with peer 0 among the two peers draining. -/
theorem c7_notifier_lifecycle_witness :
    ((0 : Nat) ∈ ([0, 1] : List Nat)) ∧
    (((pollingPoll (PollingState.fresh 0) 0).1 = false ∧
        (notifydPoll NotifydState.fresh 0).1 = false ∧
        (pipePoll PipeState.fresh 0).1 = false) ∧
      ((pollingPoll (pollingPost (PollingState.fresh 0)) 0).1 = true ∧
        (notifydPoll (notifydPost NotifydState.fresh) 0).1 = true ∧
        (pipePoll (pipePost PipeState.fresh) 0).1 = true) ∧
      ((pollingPoll (pollingDrain (pollingPost (PollingState.fresh 0))
          [0, 1]) 0).1 = false ∧
        (notifydPoll (notifydDrain (notifydPost NotifydState.fresh) [0, 1])
          0).1 = false ∧
        (pipePoll (pipeSettle (pipePost PipeState.fresh)) 0).1 = false)) :=
  ⟨by decide, c7_notifier_lifecycle 0 0 [0, 1] (by decide)⟩

/-! ### Function registry lemmas -/

theorem mapFind_cons (k' : String) (v : FunctionInfo)
    (rest : List (String × FunctionInfo)) (k : String) :
    mapFind ((k', v) :: rest) k = if k' = k then some v else mapFind rest k := rfl

theorem mapFind_mapErase_self (m : List (String × FunctionInfo)) (k : String) :
    mapFind (mapErase m k) k = none := by
  unfold mapErase
  induction m with
  | nil => rfl
  | cons p t ih =>
    obtain ⟨k', v⟩ := p
    by_cases h : k' = k
    · rw [List.filter_cons_of_neg (by simpa using h)]
      exact ih
    · rw [List.filter_cons_of_pos (by simpa using h), mapFind_cons, if_neg h]
      exact ih

theorem mapErase_filter_self (m : List (String × FunctionInfo)) (k : String) :
    (mapErase m k).filter (fun p => p.1 = k) = [] := by
  unfold mapErase
  induction m with
  | nil => rfl
  | cons p t ih =>
    by_cases h : p.1 = k
    · rw [List.filter_cons_of_neg (by simpa using h)]
      exact ih
    · rw [List.filter_cons_of_pos (by simpa using h),
        List.filter_cons_of_neg (by simpa using h)]
      exact ih

theorem filter_eq_nil_of_mapFind_none (m : List (String × FunctionInfo))
    (k : String) (h : mapFind m k = none) :
    m.filter (fun p => p.1 = k) = [] := by
  induction m with
  | nil => rfl
  | cons p t ih =>
    obtain ⟨k', v⟩ := p
    rw [mapFind_cons] at h
    by_cases hk : k' = k
    · rw [if_pos hk] at h
      exact Option.noConfusion h
    · rw [if_neg hk] at h
      rw [List.filter_cons_of_neg (by simpa using hk)]
      exact ih h

theorem mapFind_function_remove_self (st : FunctionRegistry) (nm : String) :
    mapFind (function_remove st nm).loaded_functions nm = none := by
  unfold function_remove function_remove_ignore_autoload
  cases hf : mapFind st.loaded_functions nm with
  | none =>
    show mapFind st.loaded_functions nm = none
    exact hf
  | some info =>
    show mapFind (mapErase st.loaded_functions nm) nm = none
    exact mapFind_mapErase_self _ _

theorem function_remove_filter_self (st : FunctionRegistry) (nm : String) :
    (function_remove st nm).loaded_functions.filter (fun p => p.1 = nm) = [] := by
  unfold function_remove function_remove_ignore_autoload
  cases hf : mapFind st.loaded_functions nm with
  | none =>
    show st.loaded_functions.filter (fun p => p.1 = nm) = []
    exact filter_eq_nil_of_mapFind_none _ _ hf
  | some info =>
    show (mapErase st.loaded_functions nm).filter (fun p => p.1 = nm) = []
    exact mapErase_filter_self _ _

theorem mapFind_none_not_mem_funcKeys (m : List (String × FunctionInfo))
    (k : String) (h : mapFind m k = none) : k ∉ funcKeys m := by
  induction m with
  | nil => simp [funcKeys]
  | cons p t ih =>
    obtain ⟨k', v⟩ := p
    rw [mapFind_cons] at h
    by_cases hk : k' = k
    · rw [if_pos hk] at h
      exact Option.noConfusion h
    · rw [if_neg hk] at h
      intro hmem
      rcases List.mem_cons.mp hmem with h1 | h1
      · exact hk h1.symm
      · exact ih h h1

theorem funcKeys_nodup_mapErase (m : List (String × FunctionInfo))
    (k : String) (h : (funcKeys m).Nodup) : (funcKeys (mapErase m k)).Nodup := by
  have hsub : (funcKeys (mapErase m k)).Sublist (funcKeys m) :=
    (List.filter_sublist m).map _
  exact h.sublist hsub

theorem funcKeys_nodup_mapInsert (m : List (String × FunctionInfo))
    (k : String) (v : FunctionInfo) (h : (funcKeys m).Nodup) :
    (funcKeys (mapInsert m k v)).Nodup := by
  cases hf : mapFind m k with
  | some info =>
    have heq : mapInsert m k v = m := by
      unfold mapInsert
      rw [hf]
      rfl
    rw [heq]
    exact h
  | none =>
    have heq : mapInsert m k v = (k, v) :: m := by
      unfold mapInsert
      rw [hf]
      rfl
    rw [heq]
    show (k :: funcKeys m).Nodup
    exact List.nodup_cons.mpr ⟨mapFind_none_not_mem_funcKeys m k hf, h⟩

theorem funcKeys_nodup_function_remove (st : FunctionRegistry) (nm : String)
    (h : (funcKeys st.loaded_functions).Nodup) :
    (funcKeys (function_remove st nm).loaded_functions).Nodup := by
  unfold function_remove function_remove_ignore_autoload
  cases hf : mapFind st.loaded_functions nm with
  | none => exact h
  | some info => exact funcKeys_nodup_mapErase _ _ h

theorem funcKeys_nodup_function_add (st : FunctionRegistry)
    (data : FunctionData) (autoload : Bool)
    (h : (funcKeys st.loaded_functions).Nodup) :
    (funcKeys (function_add st data autoload).loaded_functions).Nodup := by
  unfold function_add
  by_cases hn : data.name = ""
  · rw [if_pos hn]; exact h
  · rw [if_neg hn]
    cases hd : data.definition with
    | none => exact h
    | some d =>
      show (funcKeys (mapInsert (function_remove st data.name).loaded_functions
        data.name _)).Nodup
      exact funcKeys_nodup_mapInsert _ _ _
        (funcKeys_nodup_function_remove st data.name h)

theorem funcKeys_nodup_function_copy (st : FunctionRegistry)
    (nm nn : String) (h : (funcKeys st.loaded_functions).Nodup) :
    (funcKeys (function_copy st nm nn).loaded_functions).Nodup := by
  unfold function_copy
  cases hf : mapFind st.loaded_functions nm with
  | none => exact h
  | some info =>
    show (funcKeys (mapInsert st.loaded_functions nn _)).Nodup
    exact funcKeys_nodup_mapInsert _ _ _ h

theorem funcKeys_function_set_desc (st : FunctionRegistry) (nm ds : String) :
    funcKeys (function_set_desc st nm ds).loaded_functions =
      funcKeys st.loaded_functions := by
  show funcKeys (st.loaded_functions.map _) = _
  induction st.loaded_functions with
  | nil => rfl
  | cons p t ih =>
    by_cases h : p.1 = nm
    · simp only [List.map_cons, funcKeys, if_pos h] at ih ⊢
      rw [ih]
    · simp only [List.map_cons, funcKeys, if_neg h] at ih ⊢
      rw [ih]

/-! ### Claims about the function registry -/

/-- C9: once `function_remove` erases an autoloaded function, the name is
tombstoned and every later `load` of it returns 0 without invoking the
autoloader, so the function is never silently resurrected from disk;
removing a name not present in the table is a no-op that changes
nothing. -/
theorem c9_tombstone_blocks_autoload (st : FunctionRegistry) (name : String)
    (info : FunctionInfo)
    (hfound : mapFind st.loaded_functions name = some info)
    (hauto : info.is_autoload = true) :
    (name ∈ (function_remove st name).function_tombstones ∧
      ∀ res, load (function_remove st name) name res = (0, false)) ∧
    (∀ st₂ k, mapFind st₂.loaded_functions k = none →
      function_remove st₂ k = st₂) := by
  have hmem : name ∈ (function_remove st name).function_tombstones := by
    unfold function_remove function_remove_ignore_autoload
    rw [hfound]
    simp [hauto]
  refine ⟨⟨hmem, fun res => ?_⟩, fun st₂ k hnone => ?_⟩
  · unfold load
    rw [if_pos hmem]
  · unfold function_remove function_remove_ignore_autoload
    rw [hnone]

/-- Witness for C9: removing the autoloaded "f" from `sampleRegistry`
tombstones it, a later load of "f" returns 0 without autoloading (here
the autoloader would have returned 1), and removing the absent "g"
changes nothing. -/
theorem c9_tombstone_blocks_autoload_witness :
    (mapFind sampleRegistry.loaded_functions "f" =
      some ⟨"body", "", [], true, false⟩) ∧
    ("f" ∈ (function_remove sampleRegistry "f").function_tombstones) ∧
    (load (function_remove sampleRegistry "f") "f" 1 = (0, false)) ∧
    (function_remove sampleRegistry "g" = sampleRegistry) :=
  ⟨by decide,
    (c9_tombstone_blocks_autoload sampleRegistry "f" ⟨"body", "", [], true, false⟩
      (by decide) rfl).1.1,
    (c9_tombstone_blocks_autoload sampleRegistry "f" ⟨"body", "", [], true, false⟩
      (by decide) rfl).1.2 1,
    (c9_tombstone_blocks_autoload sampleRegistry "f" ⟨"body", "", [], true, false⟩
      (by decide) rfl).2 sampleRegistry "g" (by decide)⟩

/-- C10: `function_add` with a non-empty name and non-null definition
first removes any old function of that name, so afterwards the map holds
exactly one entry for that name, bound to the new definition; and every
registry operation keeps the map's names unique. -/
theorem c10_function_add_unique (st : FunctionRegistry) (data : FunctionData)
    (autoload : Bool) (d : String) (hname : ¬ data.name = "")
    (hdef : data.definition = some d) :
    ((function_add st data autoload).loaded_functions.filter
        (fun p => p.1 = data.name) =
      [(data.name,
        ⟨d, data.description, data.named_arguments, autoload, data.shadows⟩)]) ∧
    (∀ st₂ nm nn ds, (funcKeys st₂.loaded_functions).Nodup →
      (funcKeys (function_add st₂ data autoload).loaded_functions).Nodup ∧
      (funcKeys (function_remove st₂ nm).loaded_functions).Nodup ∧
      (funcKeys (function_copy st₂ nm nn).loaded_functions).Nodup ∧
      (funcKeys (function_set_desc st₂ nm ds).loaded_functions).Nodup) := by
  constructor
  · unfold function_add
    rw [if_neg hname]
    obtain ⟨nm, odef, desc, nargs, sh⟩ := data
    simp only at hdef hname ⊢
    subst hdef
    show (mapInsert (function_remove st nm).loaded_functions nm
      ⟨d, desc, nargs, autoload, sh⟩).filter (fun p => p.1 = nm) = _
    unfold mapInsert
    rw [mapFind_function_remove_self]
    simp only [Option.isSome_none, Bool.false_eq_true, if_false]
    rw [List.filter_cons_of_pos (by simp), function_remove_filter_self]
  · intro st₂ nm nn ds h
    exact ⟨funcKeys_nodup_function_add st₂ data autoload h,
      funcKeys_nodup_function_remove st₂ nm h,
      funcKeys_nodup_function_copy st₂ nm nn h,
      funcKeys_function_set_desc st₂ nm ds ▸ h⟩

/-- Witness for C10: adding "f" with a new body over `sampleRegistry`
leaves exactly one "f" entry carrying the new definition, and the
registry operations keep `sampleRegistry`'s names unique. -/
theorem c10_function_add_unique_witness :
    (¬ ("f" : String) = "") ∧
    ((function_add sampleRegistry ⟨"f", some "body2", "", [], false⟩
        false).loaded_functions.filter (fun p => p.1 = "f") =
      [("f", ⟨"body2", "", [], false, false⟩)]) ∧
    ((funcKeys (function_add sampleRegistry ⟨"f", some "body2", "", [], false⟩
        false).loaded_functions).Nodup ∧
      (funcKeys (function_remove sampleRegistry "f").loaded_functions).Nodup ∧
      (funcKeys (function_copy sampleRegistry "f" "h").loaded_functions).Nodup ∧
      (funcKeys (function_set_desc sampleRegistry "f" "x").loaded_functions).Nodup) :=
  ⟨by decide,
    (c10_function_add_unique sampleRegistry ⟨"f", some "body2", "", [], false⟩
      false "body2" (by decide) rfl).1,
    (c10_function_add_unique sampleRegistry ⟨"f", some "body2", "", [], false⟩
      false "body2" (by decide) rfl).2 sampleRegistry "f" "h" "x" (by decide)⟩

end Fish
